import Mathlib

/-!
Verification of the parallel range-shift engine `shift_right_impl` from
`src/bundled/kokkos-3.7.00/algorithms/src/std_algorithms/impl/Kokkos_ShiftRight.hpp`.

The underlying allocation is modelled as a total function `Nat → α` over absolute
positions; iterators `first`, `last` are absolute indices with `first ≤ last` for a
valid range, and the shift amount `n` is a signed integer (the C++
`difference_type`).  Each `parallel_for` launch over `RangePolicy(0, k)` is modelled
as a fold of its work items over a list of indices (the schedule order); the
canonical order is `List.range k`, and scheduling-independence is stated over
arbitrary permutations of it.  Observable resource effects (scratch-buffer
allocation, parallel launches, the final fence) are recorded in an event trace.
Scratch-buffer allocation may fail (`std::bad_alloc` from the `Kokkos::View`
constructor); this is modelled by an allocation oracle `allocOk : Nat → Bool`
consulted with the requested extent.
-/

namespace ShiftRight

variable {α : Type}

/-- Observable resource events of one `shift_right_impl` call: scratch-buffer
allocation with its extent, a parallel launch with its work-item count, and the
execution-space fence. -/
inductive Ev where
  | alloc : Nat → Ev
  | launch : Nat → Ev
  | barrier : Ev
  deriving DecidableEq

/-- True exactly on launch events. -/
def Ev.isLaunch : Ev → Bool
  | Ev.launch _ => true
  | _ => false

/-- True exactly on the fence event. -/
def Ev.isBarrier : Ev → Bool
  | Ev.barrier => true
  | _ => false

/-- Successful outcome of a call: final allocation contents, final scratch-view
contents, returned iterator position, and the event trace in issue order. -/
structure ShiftOut (α : Type) where
  mem : Nat → α
  scratch : Nat → α
  ret : Nat
  trace : List Ev

/-- Result of `shift_right_impl`.  `rangeAssert` models the assertive
`expect_valid_range` check firing, `signAssert` the `KOKKOS_EXPECTS(n >= 0)`
check; both carry the untouched allocation contents at the failure point, as
does `allocFail` (scratch allocation failure). -/
inductive SRes (α : Type) where
  | rangeAssert : (Nat → α) → SRes α
  | signAssert : (Nat → α) → SRes α
  | allocFail : (Nat → α) → SRes α
  | ok : ShiftOut α → SRes α

/-- True exactly on the two assertive-precondition failure outcomes. -/
def SRes.isContractFail : SRes α → Bool
  | SRes.rangeAssert _ => true
  | SRes.signAssert _ => true
  | _ => false

/-- Pointwise update of a memory function at one position. -/
def upd (f : Nat → α) (i : Nat) (v : α) : Nat → α :=
  fun j => if j = i then v else f j

/-- Modelled from the spec: phase 1 (`StdMoveFunctor` from
`std_algorithms/Kokkos_Move.hpp`, not under src/) — work item `i` moves the
element at `first + i` into scratch position `i`; the launch executes the items
of `order` one by one.  The value type is modelled as trivially movable, so the
source location keeps its (unspecified) moved-from content. -/
def runPhase1 (mem : Nat → α) (first : Nat) (scr0 : Nat → α) (order : List Nat) : Nat → α :=
  order.foldl (fun s i => upd s i (mem (first + i))) scr0

/-- Modelled from the spec: phase 2 (`StdMoveFunctor` with source and
destination swapped) — work item `i` moves scratch position `i` into
`base + i` where `base = first + n`; the launch executes the items of `order`
one by one. -/
def runPhase2 (scr : Nat → α) (base : Nat) (mem0 : Nat → α) (order : List Nat) : Nat → α :=
  order.foldl (fun m i => upd m (base + i) (scr i)) mem0

/-- The body of `shift_right_impl`, generalized over the schedule orders `o1`
(phase 1) and `o2` (phase 2) of the two `parallel_for` launches.  Checks mirror
the source: `expect_valid_range(first, last)` (modelled from the spec as the
non-inverted-range assertion; `Kokkos_Constraints.hpp` is not under src/), then
`KOKKOS_EXPECTS(n >= 0)`, then the two trivial-case short circuits, then
scratch allocation of extent `distance(first, last - n)`, the two launches, and
the fence.  `distance` (from `Kokkos_Distance.hpp`, not under src/) is modelled
from the spec as iterator subtraction. -/
def shift_right_sched [Inhabited α] (allocOk : Nat → Bool) (mem : Nat → α)
    (first last : Nat) (n : Int) (o1 o2 : List Nat) : SRes α :=
  if first ≤ last then
    if 0 ≤ n then
      if n = 0 then
        SRes.ok ⟨mem, fun _ => default, first, []⟩
      else if (last : Int) - (first : Int) ≤ n then
        SRes.ok ⟨mem, fun _ => default, last, []⟩
      else
        let k := last - first - n.toNat
        if allocOk k then
          let scr := runPhase1 mem first (fun _ => default) o1
          SRes.ok ⟨runPhase2 scr (first + n.toNat) mem o2, scr, first + n.toNat,
            [Ev.alloc k, Ev.launch o1.length, Ev.launch o2.length, Ev.barrier]⟩
        else SRes.allocFail mem
    else SRes.signAssert mem
  else SRes.rangeAssert mem

/-- `shift_right_impl(label, ex, first, last, n)`: both launches iterate the
index range `[0, k)` with `k = distance(first, last - n)`; the diagnostic label
has no behavioral effect and is dropped. -/
def shift_right_impl [Inhabited α] (allocOk : Nat → Bool) (mem : Nat → α)
    (first last : Nat) (n : Int) : SRes α :=
  shift_right_sched allocOk mem first last n
    (List.range (last - first - n.toNat)) (List.range (last - first - n.toNat))

/-- A phase-1 launch leaves scratch position `j` holding `mem (first + j)` when
item `j` ran, and its initial content otherwise; the launch never touches
`mem`. -/
lemma runPhase1_apply (mem : Nat → α) (first : Nat) (scr0 : Nat → α)
    (order : List Nat) (j : Nat) :
    runPhase1 mem first scr0 order j =
      if j ∈ order then mem (first + j) else scr0 j := by
  induction order generalizing scr0 with
  | nil => simp [runPhase1]
  | cons a l ih =>
    show runPhase1 mem first (upd scr0 a (mem (first + a))) l j = _
    rw [ih]
    by_cases hl : j ∈ l
    · simp [hl]
    · by_cases ha : j = a
      · subst ha
        simp [hl, upd]
      · simp [hl, ha, upd]

/-- A phase-2 launch leaves position `p` holding `scr (p - base)` when `p` is a
destination `base + i` of some executed item `i`, and its prior content
otherwise; the launch never touches scratch. -/
lemma runPhase2_apply (scr : Nat → α) (base : Nat) (mem0 : Nat → α)
    (order : List Nat) (p : Nat) :
    runPhase2 scr base mem0 order p =
      if ∃ i ∈ order, p = base + i then scr (p - base) else mem0 p := by
  induction order generalizing mem0 with
  | nil => simp [runPhase2]
  | cons a l ih =>
    show runPhase2 scr base (upd mem0 (base + a) (scr a)) l p = _
    rw [ih]
    by_cases hE : ∃ i ∈ l, p = base + i
    · obtain ⟨i, hi, rfl⟩ := hE
      have h1 : ∃ j ∈ l, base + i = base + j := ⟨i, hi, rfl⟩
      have h2 : ∃ j ∈ a :: l, base + i = base + j := ⟨i, List.mem_cons_of_mem _ hi, rfl⟩
      simp only [h1, h2, if_true]
    · by_cases ha : p = base + a
      · subst ha
        have h2 : ∃ j ∈ a :: l, base + a = base + j := ⟨a, List.mem_cons_self _ _, rfl⟩
        simp [hE, h2, upd]
      · have h2 : ¬ ∃ j ∈ a :: l, p = base + j := by
          rintro ⟨j, hj, rfl⟩
          rcases List.mem_cons.mp hj with h | h
          · exact ha (by rw [h])
          · exact hE ⟨j, h, rfl⟩
        simp [hE, h2, upd, ha]

/-- Phase-1 items write pairwise distinct scratch positions and read only
`mem`, which no phase-1 item writes, so the launch result is independent of the
schedule order. -/
lemma runPhase1_perm (mem : Nat → α) (first : Nat) (scr0 : Nat → α)
    {o1 o2 : List Nat} (h : o1.Perm o2) :
    runPhase1 mem first scr0 o1 = runPhase1 mem first scr0 o2 := by
  funext j
  rw [runPhase1_apply, runPhase1_apply]
  simp only [h.mem_iff]

/-- Phase-2 items write pairwise distinct range positions and read only
scratch, which no phase-2 item writes, so the launch result is independent of
the schedule order. -/
lemma runPhase2_perm (scr : Nat → α) (base : Nat) (mem0 : Nat → α)
    {o1 o2 : List Nat} (h : o1.Perm o2) :
    runPhase2 scr base mem0 o1 = runPhase2 scr base mem0 o2 := by
  funext p
  rw [runPhase2_apply, runPhase2_apply]
  congr 1
  simp only [eq_iff_iff]
  constructor
  · rintro ⟨i, hi, rfl⟩
    exact ⟨i, h.mem_iff.mp hi, rfl⟩
  · rintro ⟨i, hi, rfl⟩
    exact ⟨i, h.mem_iff.mpr hi, rfl⟩

/-- Unfolding of the general case `0 < n < distance(first, last)` with a
successful scratch allocation, for arbitrary schedule orders. -/
lemma shift_right_sched_general [Inhabited α] (allocOk : Nat → Bool) (mem : Nat → α)
    (first last : Nat) (n : Int) (o1 o2 : List Nat)
    (h1 : first ≤ last) (h2 : 0 < n) (h3 : n < (last : Int) - (first : Int))
    (hA : allocOk (last - first - n.toNat) = true) :
    shift_right_sched allocOk mem first last n o1 o2 =
      SRes.ok ⟨runPhase2 (runPhase1 mem first (fun _ => default) o1) (first + n.toNat) mem o2,
        runPhase1 mem first (fun _ => default) o1,
        first + n.toNat,
        [Ev.alloc (last - first - n.toNat), Ev.launch o1.length, Ev.launch o2.length,
          Ev.barrier]⟩ := by
  have hn0 : ¬ n = 0 := by omega
  have hd : ¬ ((last : Int) - (first : Int) ≤ n) := by omega
  have h2' : 0 ≤ n := le_of_lt h2
  simp only [shift_right_sched, if_pos h1, if_pos h2', if_neg hn0, if_neg hd, hA, if_true]

/-- Unfolding of the general case for `shift_right_impl` (canonical schedule
orders `List.range k`). -/
lemma shift_right_impl_general [Inhabited α] (allocOk : Nat → Bool) (mem : Nat → α)
    (first last : Nat) (n : Int)
    (h1 : first ≤ last) (h2 : 0 < n) (h3 : n < (last : Int) - (first : Int))
    (hA : allocOk (last - first - n.toNat) = true) :
    shift_right_impl allocOk mem first last n =
      SRes.ok ⟨runPhase2 (runPhase1 mem first (fun _ => default)
          (List.range (last - first - n.toNat))) (first + n.toNat) mem
          (List.range (last - first - n.toNat)),
        runPhase1 mem first (fun _ => default) (List.range (last - first - n.toNat)),
        first + n.toNat,
        [Ev.alloc (last - first - n.toNat), Ev.launch (last - first - n.toNat),
          Ev.launch (last - first - n.toNat), Ev.barrier]⟩ := by
  rw [shift_right_impl, shift_right_sched_general allocOk mem first last n _ _ h1 h2 h3 hA]
  simp [List.length_range]

/-- After the canonical phase 1 over `[0, k)`, scratch position `i < k` holds
the element originally at `first + i`. -/
lemma canonical_scratch (mem : Nat → α) (first : Nat) (scr0 : Nat → α) (k i : Nat)
    (hi : i < k) :
    runPhase1 mem first scr0 (List.range k) i = mem (first + i) := by
  rw [runPhase1_apply]
  simp [List.mem_range, hi]

/-- After the canonical phase 2 over `[0, k)`, position `base + i` with `i < k`
holds scratch position `i`. -/
lemma canonical_fill (scr : Nat → α) (base : Nat) (mem0 : Nat → α) (k i : Nat)
    (hi : i < k) :
    runPhase2 scr base mem0 (List.range k) (base + i) = scr i := by
  have hE : ∃ j ∈ List.range k, base + i = base + j := ⟨i, List.mem_range.mpr hi, rfl⟩
  rw [runPhase2_apply, if_pos hE]
  congr 1
  omega

/-- The canonical phase 2 over `[0, k)` writes nothing outside
`[base, base + k)`. -/
lemma canonical_frame (scr : Nat → α) (base : Nat) (mem0 : Nat → α) (k p : Nat)
    (hp : p < base ∨ base + k ≤ p) :
    runPhase2 scr base mem0 (List.range k) p = mem0 p := by
  have hE : ¬ ∃ j ∈ List.range k, p = base + j := by
    rintro ⟨j, hj, rfl⟩
    rw [List.mem_range] at hj
    omega
  rw [runPhase2_apply, if_neg hE]

/-- Unfolding of the `n == 0` short circuit. -/
lemma shift_right_impl_zero [Inhabited α] (allocOk : Nat → Bool) (mem : Nat → α)
    (first last : Nat) (h1 : first ≤ last) :
    shift_right_impl allocOk mem first last 0 =
      SRes.ok ⟨mem, fun _ => default, first, []⟩ := by
  simp [shift_right_impl, shift_right_sched, h1]

/-- Unfolding of the `n >= distance(first, last)` short circuit (for `n ≠ 0`). -/
lemma shift_right_impl_sat [Inhabited α] (allocOk : Nat → Bool) (mem : Nat → α)
    (first last : Nat) (n : Int)
    (h1 : first ≤ last) (h2 : 0 ≤ n) (h0 : n ≠ 0) (hd : (last : Int) - (first : Int) ≤ n) :
    shift_right_impl allocOk mem first last n =
      SRes.ok ⟨mem, fun _ => default, last, []⟩ := by
  simp [shift_right_impl, shift_right_sched, h1, h2, h0, hd]

/-- Concrete 12-element scenario from the source file's worked example: the
allocation holds `[0, 1, 2, 1, 2, 1, 2, 2, 10, -3, 1, -6]` on positions 0 to
11, and 0 elsewhere. -/
def ex12 : Nat → Int := fun i => [0, 1, 2, 1, 2, 1, 2, 2, 10, -3, 1, -6].getD i 0

/-- Concrete length-5 allocation contents for trivial-case witnesses. -/
def ex5 : Nat → Int := fun i => [5, 6, 7, 8, 9].getD i 0

/-- C1: for every range `[first, last)` and every shift amount `n` with
`0 < n < distance(first, last)`, after `shift_right` the element originally at
`first + i` is stored at `first + n + i` for every `i` in `[0, length - n)`,
and the returned position equals `first + n`. -/
theorem shift_right_content_preservation [Inhabited α] (allocOk : Nat → Bool) (mem : Nat → α)
    (first last : Nat) (n : Int)
    (h1 : first ≤ last) (h2 : 0 < n) (h3 : n < (last : Int) - (first : Int))
    (hA : allocOk (last - first - n.toNat) = true) :
    ∃ r, shift_right_impl allocOk mem first last n = SRes.ok r ∧
      (r.ret : Int) = (first : Int) + n ∧
      ∀ i : Nat, (i : Int) < ((last : Int) - (first : Int)) - n →
        r.mem (first + n.toNat + i) = mem (first + i) := by
  refine ⟨_, shift_right_impl_general allocOk mem first last n h1 h2 h3 hA, ?_, ?_⟩
  · show ((first + n.toNat : Nat) : Int) = (first : Int) + n
    omega
  · intro i hi
    have hik : i < last - first - n.toNat := by omega
    show runPhase2 (runPhase1 mem first (fun _ => default)
        (List.range (last - first - n.toNat))) (first + n.toNat) mem
        (List.range (last - first - n.toNat)) (first + n.toNat + i) = mem (first + i)
    rw [canonical_fill _ _ _ _ _ hik, canonical_scratch _ _ _ _ _ hik]

/-- Witness for C1 at the concrete 12-element scenario with `n = 3`. -/
theorem shift_right_content_preservation_witness :
    (0 : Nat) ≤ 12 ∧ (0 : Int) < 3 ∧ (3 : Int) < (12 : Int) - (0 : Int) ∧
    (∃ r, shift_right_impl (fun _ => true) ex12 0 12 3 = SRes.ok r ∧
      (r.ret : Int) = (0 : Int) + 3 ∧
      ∀ i : Nat, (i : Int) < ((12 : Int) - (0 : Int)) - 3 →
        r.mem (0 + (3 : Int).toNat + i) = ex12 (0 + i)) :=
  ⟨by decide, by decide, by decide,
    shift_right_content_preservation (fun _ => true) ex12 0 12 3 (by decide) (by decide)
      (by decide) rfl⟩

/-- C2: for every range and `n = 0`, `shift_right` returns `first`, the range
contents are unchanged, and no scratch buffer is allocated and no parallel
work is launched (empty event trace). -/
theorem shift_right_zero_noop [Inhabited α] (allocOk : Nat → Bool) (mem : Nat → α)
    (first last : Nat) (n : Int) (h1 : first ≤ last) (h0 : n = 0) :
    ∃ r, shift_right_impl allocOk mem first last n = SRes.ok r ∧
      r.mem = mem ∧ r.ret = first ∧ r.trace = [] := by
  subst h0
  refine ⟨⟨mem, fun _ => default, first, []⟩, ?_, rfl, rfl, rfl⟩
  simp [shift_right_impl, shift_right_sched, h1]

/-- Witness for C2 at a length-5 range with `n = 0`. -/
theorem shift_right_zero_noop_witness :
    (0 : Nat) ≤ 5 ∧ (0 : Int) = 0 ∧
    (∃ r, shift_right_impl (fun _ => true) ex5 0 5 0 = SRes.ok r ∧
      r.mem = ex5 ∧ r.ret = 0 ∧ r.trace = []) :=
  ⟨by decide, rfl, shift_right_zero_noop (fun _ => true) ex5 0 5 0 (by decide) rfl⟩

/-- C3: for every range and every `n ≥ distance(first, last)`, `shift_right`
returns `last` with no scratch allocation and no launch (empty event trace),
no matter how much `n` exceeds the length. -/
theorem shift_right_overlarge_returns_last [Inhabited α] (allocOk : Nat → Bool) (mem : Nat → α)
    (first last : Nat) (n : Int)
    (h1 : first ≤ last) (hd : (last : Int) - (first : Int) ≤ n) :
    ∃ r, shift_right_impl allocOk mem first last n = SRes.ok r ∧
      r.ret = last ∧ r.trace = [] := by
  have h2 : 0 ≤ n := by omega
  by_cases h0 : n = 0
  · subst h0
    have hfl : first = last := by omega
    subst hfl
    exact ⟨⟨mem, fun _ => default, first, []⟩,
      by simp [shift_right_impl, shift_right_sched, h1], rfl, rfl⟩
  · exact ⟨⟨mem, fun _ => default, last, []⟩,
      by simp [shift_right_impl, shift_right_sched, h1, h2, h0, hd], rfl, rfl⟩

/-- Witness for C3 at a length-5 range with `n = 7`. -/
theorem shift_right_overlarge_returns_last_witness :
    (0 : Nat) ≤ 5 ∧ (5 : Int) - (0 : Int) ≤ 7 ∧
    (∃ r, shift_right_impl (fun _ => true) ex5 0 5 7 = SRes.ok r ∧
      r.ret = 5 ∧ r.trace = []) :=
  ⟨by decide, by decide,
    shift_right_overlarge_returns_last (fun _ => true) ex5 0 5 7 (by decide) (by decide)⟩

/-- C4: for the empty range (`first = last`) and every `n ≥ 0`, `shift_right`
is a no-op: contents unchanged, empty event trace, and the returned position
equals both `first` and `last`. -/
theorem shift_right_empty_range_noop [Inhabited α] (allocOk : Nat → Bool) (mem : Nat → α)
    (first last : Nat) (n : Int) (he : first = last) (h2 : 0 ≤ n) :
    ∃ r, shift_right_impl allocOk mem first last n = SRes.ok r ∧
      r.mem = mem ∧ r.ret = first ∧ r.ret = last ∧ r.trace = [] := by
  subst he
  by_cases h0 : n = 0
  · subst h0
    exact ⟨⟨mem, fun _ => default, first, []⟩,
      by simp [shift_right_impl, shift_right_sched], rfl, rfl, rfl, rfl⟩
  · have hd : (first : Int) - (first : Int) ≤ n := by omega
    exact ⟨⟨mem, fun _ => default, first, []⟩,
      by simp [shift_right_impl, shift_right_sched, h2, h0, hd], rfl, rfl, rfl, rfl⟩

/-- Witness for C4 at the empty range `[4, 4)` with `n = 2`. -/
theorem shift_right_empty_range_noop_witness :
    (4 : Nat) = 4 ∧ (0 : Int) ≤ 2 ∧
    (∃ r, shift_right_impl (fun _ => true) ex5 4 4 2 = SRes.ok r ∧
      r.mem = ex5 ∧ r.ret = 4 ∧ r.ret = 4 ∧ r.trace = []) :=
  ⟨rfl, by decide,
    shift_right_empty_range_noop (fun _ => true) ex5 4 4 2 rfl (by decide)⟩

/-- Identity contents, for witnesses needing distinct identifiable values. -/
def exId : Nat → Int := fun i => i

/-- C5: in the general case `0 < n < distance(first, last)`, the scratch buffer
has exactly `k = distance(first, last) - n` elements, each of the two launches
runs exactly `k` work items, phase 1 item `i` moves `first + i` into scratch
position `i`, and phase 2 item `i` moves scratch position `i` into
`first + n + i`. -/
theorem shift_right_scratch_and_launch_sizes [Inhabited α] (allocOk : Nat → Bool)
    (mem : Nat → α) (first last : Nat) (n : Int)
    (h1 : first ≤ last) (h2 : 0 < n) (h3 : n < (last : Int) - (first : Int))
    (hA : allocOk (last - first - n.toNat) = true) :
    ∃ r, shift_right_impl allocOk mem first last n = SRes.ok r ∧
      r.trace = [Ev.alloc (last - first - n.toNat), Ev.launch (last - first - n.toNat),
        Ev.launch (last - first - n.toNat), Ev.barrier] ∧
      (∀ i, i < last - first - n.toNat → r.scratch i = mem (first + i)) ∧
      (∀ i, i < last - first - n.toNat → r.mem (first + n.toNat + i) = r.scratch i) := by
  refine ⟨_, shift_right_impl_general allocOk mem first last n h1 h2 h3 hA, rfl, ?_, ?_⟩
  · intro i hik
    exact canonical_scratch mem first _ _ i hik
  · intro i hik
    show runPhase2 (runPhase1 mem first (fun _ => default)
        (List.range (last - first - n.toNat))) (first + n.toNat) mem
        (List.range (last - first - n.toNat)) (first + n.toNat + i) =
      runPhase1 mem first (fun _ => default) (List.range (last - first - n.toNat)) i
    rw [canonical_fill _ _ _ _ _ hik]

/-- Witness for C5 at the range `[2, 7)` with `n = 2` (so `k = 3`). -/
theorem shift_right_scratch_and_launch_sizes_witness :
    (2 : Nat) ≤ 7 ∧ (0 : Int) < 2 ∧ (2 : Int) < (7 : Int) - (2 : Int) ∧
    (∃ r, shift_right_impl (fun _ => true) exId 2 7 2 = SRes.ok r ∧
      r.trace = [Ev.alloc (7 - 2 - (2 : Int).toNat), Ev.launch (7 - 2 - (2 : Int).toNat),
        Ev.launch (7 - 2 - (2 : Int).toNat), Ev.barrier] ∧
      (∀ i, i < 7 - 2 - (2 : Int).toNat → r.scratch i = exId (2 + i)) ∧
      (∀ i, i < 7 - 2 - (2 : Int).toNat → r.mem (2 + (2 : Int).toNat + i) = r.scratch i)) :=
  ⟨by decide, by decide, by decide,
    shift_right_scratch_and_launch_sizes (fun _ => true) exId 2 7 2 (by decide) (by decide)
      (by decide) rfl⟩

/-- C6: per call, in the general case the event trace holds exactly two
launches and exactly one barrier, with the barrier as the final event (after
both launches, before returning); in the trivial cases there are zero launches
and zero barriers. -/
theorem shift_right_launch_barrier_discipline [Inhabited α] (allocOk : Nat → Bool)
    (mem : Nat → α) (first last : Nat) (n : Int)
    (h1 : first ≤ last) (h2 : 0 ≤ n) (hA : allocOk (last - first - n.toNat) = true) :
    ((0 < n → n < (last : Int) - (first : Int) →
      ∃ r, shift_right_impl allocOk mem first last n = SRes.ok r ∧
        (r.trace.filter Ev.isLaunch).length = 2 ∧
        (r.trace.filter Ev.isBarrier).length = 1 ∧
        r.trace.getLast? = some Ev.barrier)
    ∧ ((n = 0 ∨ (last : Int) - (first : Int) ≤ n) →
      ∃ r, shift_right_impl allocOk mem first last n = SRes.ok r ∧
        (r.trace.filter Ev.isLaunch).length = 0 ∧
        (r.trace.filter Ev.isBarrier).length = 0)) := by
  constructor
  · intro hp hlt
    exact ⟨_, shift_right_impl_general allocOk mem first last n h1 hp hlt hA, rfl, rfl, rfl⟩
  · intro h
    by_cases h0 : n = 0
    · subst h0
      exact ⟨_, shift_right_impl_zero allocOk mem first last h1, rfl, rfl⟩
    · have hd : (last : Int) - (first : Int) ≤ n := h.resolve_left h0
      exact ⟨_, shift_right_impl_sat allocOk mem first last n h1 h2 h0 hd, rfl, rfl⟩

/-- Witness for C6 at the range `[0, 6)` with `n = 2`. -/
theorem shift_right_launch_barrier_discipline_witness :
    (0 : Nat) ≤ 6 ∧ (0 : Int) ≤ 2 ∧
    (((0 : Int) < 2 → (2 : Int) < (6 : Int) - (0 : Int) →
      ∃ r, shift_right_impl (fun _ => true) exId 0 6 2 = SRes.ok r ∧
        (r.trace.filter Ev.isLaunch).length = 2 ∧
        (r.trace.filter Ev.isBarrier).length = 1 ∧
        r.trace.getLast? = some Ev.barrier)
    ∧ (((2 : Int) = 0 ∨ (6 : Int) - (0 : Int) ≤ 2) →
      ∃ r, shift_right_impl (fun _ => true) exId 0 6 2 = SRes.ok r ∧
        (r.trace.filter Ev.isLaunch).length = 0 ∧
        (r.trace.filter Ev.isBarrier).length = 0)) :=
  ⟨by decide, by decide,
    shift_right_launch_barrier_discipline (fun _ => true) exId 0 6 2 (by decide) (by decide)
      rfl⟩

/-- C7: in the general case the scratch allocation happens before any element
move: if the allocation fails, the call surfaces the allocation failure with
the allocation contents exactly equal to the input; if it succeeds, the alloc
event is the first event of the trace, before both launches. -/
theorem shift_right_alloc_before_moves [Inhabited α] (allocOk : Nat → Bool) (mem : Nat → α)
    (first last : Nat) (n : Int)
    (h1 : first ≤ last) (h2 : 0 < n) (h3 : n < (last : Int) - (first : Int)) :
    (allocOk (last - first - n.toNat) = false →
      shift_right_impl allocOk mem first last n = SRes.allocFail mem)
    ∧ (allocOk (last - first - n.toNat) = true →
      ∃ r, shift_right_impl allocOk mem first last n = SRes.ok r ∧
        r.trace.head? = some (Ev.alloc (last - first - n.toNat))) := by
  constructor
  · intro hA
    have hn0 : ¬ n = 0 := by omega
    have hd : ¬ ((last : Int) - (first : Int) ≤ n) := by omega
    have h2' : 0 ≤ n := le_of_lt h2
    simp [shift_right_impl, shift_right_sched, h1, h2', hn0, hd, hA]
  · intro hA
    exact ⟨_, shift_right_impl_general allocOk mem first last n h1 h2 h3 hA, rfl⟩

/-- Witness for C7 at the range `[0, 3)` with `n = 1` and a failing allocator. -/
theorem shift_right_alloc_before_moves_witness :
    (0 : Nat) ≤ 3 ∧ (0 : Int) < 1 ∧ (1 : Int) < (3 : Int) - (0 : Int) ∧
    (((fun _ => false : Nat → Bool) (3 - 0 - (1 : Int).toNat) = false →
      shift_right_impl (fun _ => false) ex5 0 3 1 = SRes.allocFail ex5)
    ∧ ((fun _ => false : Nat → Bool) (3 - 0 - (1 : Int).toNat) = true →
      ∃ r, shift_right_impl (fun _ => false) ex5 0 3 1 = SRes.ok r ∧
        r.trace.head? = some (Ev.alloc (3 - 0 - (1 : Int).toNat)))) :=
  ⟨by decide, by decide, by decide,
    shift_right_alloc_before_moves (fun _ => false) ex5 0 3 1 (by decide) (by decide)
      (by decide)⟩

/-- C8: the preconditions `n ≥ 0` and `first ≤ last` are checked assertively at
entry: when both hold, no assertive-check failure is reachable; when either is
violated, the call stops at the corresponding assertive check with the
allocation contents untouched (no element moved). -/
theorem shift_right_precondition_checks [Inhabited α] (allocOk : Nat → Bool) (mem : Nat → α)
    (first last : Nat) (n : Int) :
    (first ≤ last → 0 ≤ n →
      (shift_right_impl allocOk mem first last n).isContractFail = false)
    ∧ (¬ (first ≤ last ∧ 0 ≤ n) →
      shift_right_impl allocOk mem first last n = SRes.rangeAssert mem ∨
      shift_right_impl allocOk mem first last n = SRes.signAssert mem) := by
  constructor
  · intro h1 h2
    rw [shift_right_impl, shift_right_sched, if_pos h1, if_pos h2]
    by_cases h0 : n = 0
    · rw [if_pos h0]; rfl
    · rw [if_neg h0]
      by_cases hd : (last : Int) - (first : Int) ≤ n
      · rw [if_pos hd]; rfl
      · rw [if_neg hd]
        by_cases hA : allocOk (last - first - n.toNat) = true
        · simp only [hA, if_true]
          rfl
        · simp only [Bool.not_eq_true] at hA
          simp only [hA, Bool.false_eq_true, if_false]
          rfl
  · intro h
    by_cases h1 : first ≤ last
    · have h2 : ¬ 0 ≤ n := fun hh => h ⟨h1, hh⟩
      right
      rw [shift_right_impl, shift_right_sched, if_pos h1, if_neg h2]
    · left
      rw [shift_right_impl, shift_right_sched, if_neg h1]

/-- Witness for C8 at the inverted range `[3, 1)` with `n = -2`. -/
theorem shift_right_precondition_checks_witness :
    (((3 : Nat) ≤ 1 → (0 : Int) ≤ -2 →
      (shift_right_impl (fun _ => true) ex5 3 1 (-2)).isContractFail = false)
    ∧ (¬ ((3 : Nat) ≤ 1 ∧ (0 : Int) ≤ -2) →
      shift_right_impl (fun _ => true) ex5 3 1 (-2) = SRes.rangeAssert ex5 ∨
      shift_right_impl (fun _ => true) ex5 3 1 (-2) = SRes.signAssert ex5)) :=
  shift_right_precondition_checks (fun _ => true) ex5 3 1 (-2)

/-- C9: for every range and every `n ≥ 0`, every storage position outside
`[first, last)` holds exactly its input value after a successful call. -/
theorem shift_right_frame [Inhabited α] (allocOk : Nat → Bool) (mem : Nat → α)
    (first last : Nat) (n : Int)
    (h1 : first ≤ last) (h2 : 0 ≤ n) (hA : allocOk (last - first - n.toNat) = true) :
    ∃ r, shift_right_impl allocOk mem first last n = SRes.ok r ∧
      ∀ p, p < first ∨ last ≤ p → r.mem p = mem p := by
  by_cases h0 : n = 0
  · subst h0
    exact ⟨_, shift_right_impl_zero allocOk mem first last h1, fun p _ => rfl⟩
  · by_cases hd : (last : Int) - (first : Int) ≤ n
    · exact ⟨_, shift_right_impl_sat allocOk mem first last n h1 h2 h0 hd, fun p _ => rfl⟩
    · have h2p : 0 < n := by omega
      have h3 : n < (last : Int) - (first : Int) := by omega
      refine ⟨_, shift_right_impl_general allocOk mem first last n h1 h2p h3 hA, ?_⟩
      intro p hp
      show runPhase2 (runPhase1 mem first (fun _ => default)
          (List.range (last - first - n.toNat))) (first + n.toNat) mem
          (List.range (last - first - n.toNat)) p = mem p
      apply canonical_frame
      omega

/-- Witness for C9 at the range `[1, 4)` with `n = 1`, checked outside the
range. -/
theorem shift_right_frame_witness :
    (1 : Nat) ≤ 4 ∧ (0 : Int) ≤ 1 ∧
    (∃ r, shift_right_impl (fun _ => true) ex5 1 4 1 = SRes.ok r ∧
      ∀ p, p < 1 ∨ 4 ≤ p → r.mem p = ex5 p) :=
  ⟨by decide, by decide,
    shift_right_frame (fun _ => true) ex5 1 4 1 (by decide) (by decide) rfl⟩

/-- C10: within each phase distinct work items access pairwise disjoint
locations, so two executions of the same general-case call whose phases run
their work items in different orders (any permutations of `[0, k)`) produce
identical final range contents and identical returned positions. -/
theorem shift_right_schedule_independence [Inhabited α] (allocOk : Nat → Bool) (mem : Nat → α)
    (first last : Nat) (n : Int) (o1 o2 p1 p2 : List Nat)
    (h1 : first ≤ last) (h2 : 0 < n) (h3 : n < (last : Int) - (first : Int))
    (hA : allocOk (last - first - n.toNat) = true)
    (ho1 : o1.Perm (List.range (last - first - n.toNat)))
    (hp1 : p1.Perm (List.range (last - first - n.toNat)))
    (ho2 : o2.Perm (List.range (last - first - n.toNat)))
    (hp2 : p2.Perm (List.range (last - first - n.toNat))) :
    ∃ r s, shift_right_sched allocOk mem first last n o1 p1 = SRes.ok r ∧
      shift_right_sched allocOk mem first last n o2 p2 = SRes.ok s ∧
      r.mem = s.mem ∧ r.ret = s.ret := by
  refine ⟨_, _, shift_right_sched_general allocOk mem first last n o1 p1 h1 h2 h3 hA,
    shift_right_sched_general allocOk mem first last n o2 p2 h1 h2 h3 hA, ?_, rfl⟩
  show runPhase2 (runPhase1 mem first (fun _ => default) o1) (first + n.toNat) mem p1 =
    runPhase2 (runPhase1 mem first (fun _ => default) o2) (first + n.toNat) mem p2
  rw [runPhase1_perm mem first _ ho1, runPhase1_perm mem first _ ho2,
    runPhase2_perm _ _ _ hp1, runPhase2_perm _ _ _ hp2]

/-- Witness for C10 at the range `[0, 3)` with `n = 1` and opposite schedule
orders `[0, 1]` versus `[1, 0]` in both phases. -/
theorem shift_right_schedule_independence_witness :
    (0 : Nat) ≤ 3 ∧ (0 : Int) < 1 ∧ (1 : Int) < (3 : Int) - (0 : Int) ∧
    [0, 1].Perm (List.range (3 - 0 - (1 : Int).toNat)) ∧
    [1, 0].Perm (List.range (3 - 0 - (1 : Int).toNat)) ∧
    (∃ r s, shift_right_sched (fun _ => true) exId 0 3 1 [0, 1] [0, 1] = SRes.ok r ∧
      shift_right_sched (fun _ => true) exId 0 3 1 [1, 0] [1, 0] = SRes.ok s ∧
      r.mem = s.mem ∧ r.ret = s.ret) :=
  ⟨by decide, by decide, by decide, by decide, by decide,
    shift_right_schedule_independence (fun _ => true) exId 0 3 1 [0, 1] [1, 0] [0, 1] [1, 0]
      (by decide) (by decide) (by decide) rfl (by decide) (by decide) (by decide) (by decide)⟩

end ShiftRight
